import Mathlib

set_option linter.unusedVariables false

/-!
Shallow embedding of `src/data/huffman.py` (a Huffman-coding module), together
with proofs of the specification's testable properties.

Modelling conventions:

* A Python `Node` reference (an object or `None`) is the inductive type `Node`:
  `Node.null` stands for Python `None`; `Node.mk char freq left right` stands
  for a `Node` object with those four fields (`char` is `None` or a character,
  so it is an `Option Char`).
* Python code strings over the characters `'0'`/`'1'` are `List Char`, with
  string concatenation as list append.
* Python dicts (insertion-ordered, assignment overwrites in place) are
  association lists `List (key × value)` updated with `dictInsert`.
* `nodes.sort(key=lambda x: x.freq)` is a stable sort by the `freq` field.
  Any two stable sorts by the same key produce the same list, so it is
  modelled by `List.insertionSort`, which is stable.
* The module-level global `nodes` is threaded explicitly: functions that read
  or extend it take it as an argument and return the new value.
  `huffman_encoding` begins with `nodes = []`, which discards the prior value.
* The `IndexError` raised by `nodes[0]` on an empty list (the only failure in
  the module) is modelled by `Option`: `none` is the failure outcome.
* The `while` loop of `build_huffman_tree` is run with fuel `ns.length`; each
  iteration removes one node, so this fuel always suffices (proved below).
-/

/-- A Python `Node`-typed value: either `None` or an object with fields
`char` (a character or `None`), `freq`, `left`, `right`. -/
inductive Node : Type where
  | null : Node
  | mk (char : Option Char) (freq : Nat) (left : Node) (right : Node) : Node
deriving DecidableEq, Repr

/-- Field access `x.freq` (never applied to `None` by the source). -/
def Node.freq : Node → Nat
  | .null => 0
  | .mk _ f _ _ => f

/-- Field access `x.char`. -/
def Node.char : Node → Option Char
  | .null => none
  | .mk c _ _ _ => c

/-- `Node(char, freq)` as constructed in `calculate_frequencies`:
a leaf object with `left = right = None`. -/
def leafNode (c : Char) (f : Nat) : Node := Node.mk (some c) f Node.null Node.null

/-- Python dict assignment `d[k] = v`: overwrite in place if the key is
present, append a new entry otherwise (dicts preserve insertion order). -/
def dictInsert {α : Type} (d : List (Char × α)) (k : Char) (v : α) : List (Char × α) :=
  match d with
  | [] => [(k, v)]
  | (k', v') :: rest => if k' = k then (k, v) :: rest else (k', v') :: dictInsert rest k v

/-- One iteration of the `for char in word` loop of `calculate_frequencies`:
if `char` is not yet a key of `frequencies`, set
`frequencies[char] = word.count(char)` and append `Node(char, freq)` to the
global `nodes` list. -/
def calcStep (word : List Char) (acc : List (Char × Nat) × List Node) (c : Char) :
    List (Char × Nat) × List Node :=
  match acc.1.lookup c with
  | some _ => acc
  | none => (dictInsert acc.1 c (word.count c), acc.2 ++ [leafNode c (word.count c)])

/-- `calculate_frequencies(word)`: returns the local `frequencies` dict and
the global `nodes` list (initial value `g`) extended with one leaf per
distinct character of `word`. -/
def calculate_frequencies (g : List Node) (word : List Char) :
    List (Char × Nat) × List Node :=
  word.foldl (calcStep word) ([], g)

/-- The comparison used by `nodes.sort(key=lambda x: x.freq)`. -/
def nodeLE (a b : Node) : Prop := a.freq ≤ b.freq

instance : DecidableRel nodeLE := fun _ _ => Nat.decLe _ _

/-- One iteration of the `while len(nodes) > 1` loop: stable-sort by `freq`,
pop the two front nodes, merge them (first popped on the left), and append
the merged node at the end of the list. -/
def buildStep (ns : List Node) : List Node :=
  match List.insertionSort nodeLE ns with
  | l :: r :: rest => rest ++ [Node.mk none (l.freq + r.freq) l r]
  | s => s

/-- The `while len(nodes) > 1` loop, with explicit fuel. -/
def buildLoopFuel : Nat → List Node → List Node
  | 0, ns => ns
  | fuel + 1, ns => if 1 < ns.length then buildLoopFuel fuel (buildStep ns) else ns

/-- The final value of the global `nodes` after the `while` loop of
`build_huffman_tree` (fuel `ns.length` always suffices). -/
def build_loop (ns : List Node) : List Node := buildLoopFuel ns.length ns

/-- `build_huffman_tree()`: run the merge loop on the global `nodes` and
return `nodes[0]`; `none` models the `IndexError` raised when the list is
empty. -/
def build_huffman_tree (ns : List Node) : Option Node := (build_loop ns).head?

/-- `generate_huffman_codes(node, current_code, codes)`.  A `None` node
returns immediately; a node with a character records
`codes[node.char] = current_code`; then both children are visited with the
code extended by `'0'` (left) and `'1'` (right). -/
def generate_huffman_codes :
    Node → List Char → List (Char × List Char) → List (Char × List Char)
  | Node.null, _, codes => codes
  | Node.mk c _ l r, cur, codes =>
    let codes1 := match c with
      | some ch => dictInsert codes ch cur
      | none => codes
    generate_huffman_codes r (cur ++ ['1']) (generate_huffman_codes l (cur ++ ['0']) codes1)

/-- `huffman_encoding(word)` together with the final global `nodes` state.
The argument `g` is the global `nodes` value before the call; the first
statement `nodes = []` discards it. -/
def huffman_encoding_global (g : List Node) (word : List Char) :
    Option (List (Char × List Char)) × List Node :=
  let reset : List Node := []
  let fr := calculate_frequencies reset word
  let final := build_loop fr.2
  match final.head? with
  | none => (none, final)
  | some root => (some (generate_huffman_codes root [] []), final)

/-- `huffman_encoding(word)`: the returned `codes` dict (`none` models the
`IndexError` escaping on empty input). -/
def huffman_encoding (word : List Char) : Option (List (Char × List Char)) :=
  (huffman_encoding_global [] word).1

/-! ### The frequency counter

`calculate_frequencies` visits the characters of `word` in order and handles
each character the first time it is seen.  `firstOccsFrom K rest` is the list
of keys accumulated by that loop: the distinct characters of `rest` in order
of first occurrence, appended after the already-seen keys `K`. -/

/-- Keys accumulated by the `for char in word` loop, in first-occurrence
order, starting from the already-seen keys `K`. -/
def firstOccsFrom (K : List Char) : List Char → List Char
  | [] => K
  | c :: rest => firstOccsFrom (if c ∈ K then K else K ++ [c]) rest

/-- The distinct characters of `w` in first-occurrence order. -/
def firstOccs (w : List Char) : List Char := firstOccsFrom [] w

theorem lookup_map_pair {α : Type} (f : Char → α) (K : List Char) (c : Char) :
    (K.map fun k => (k, f k)).lookup c = if c ∈ K then some (f c) else none := by
  induction K with
  | nil => simp [List.lookup]
  | cons k K ih =>
    by_cases h : c = k
    · subst h; simp [List.lookup]
    · have hb : (c == k) = false := by simp [h]
      simp [List.lookup, hb, ih, h]

theorem dictInsert_fresh {α : Type} (d : List (Char × α)) (k : Char) (v : α)
    (h : k ∉ d.map Prod.fst) : dictInsert d k v = d ++ [(k, v)] := by
  induction d with
  | nil => rfl
  | cons p t ih =>
    simp only [List.map_cons, List.mem_cons] at h
    push_neg at h
    simp [dictInsert, Ne.symm h.1, ih h.2]

theorem calc_spec (word : List Char) :
    ∀ (rest K : List Char) (g : List Node),
    rest.foldl (calcStep word)
        (K.map fun c => (c, word.count c), g ++ K.map fun c => leafNode c (word.count c))
      = ((firstOccsFrom K rest).map fun c => (c, word.count c),
         g ++ (firstOccsFrom K rest).map fun c => leafNode c (word.count c)) := by
  intro rest
  induction rest with
  | nil => intro K g; simp [firstOccsFrom]
  | cons c rest ih =>
    intro K g
    by_cases h : c ∈ K
    · have hstep :
          calcStep word (K.map fun c => (c, word.count c),
            g ++ K.map fun c => leafNode c (word.count c)) c
          = (K.map fun c => (c, word.count c),
             g ++ K.map fun c => leafNode c (word.count c)) := by
        simp [calcStep, lookup_map_pair, h]
      simp only [List.foldl_cons, hstep, firstOccsFrom, if_pos h]
      exact ih K g
    · have hkeys : (K.map fun c => (c, word.count c)).map Prod.fst = K := by
        simp [List.map_map, Function.comp_def]
      have hstep :
          calcStep word (K.map fun c => (c, word.count c),
            g ++ K.map fun c => leafNode c (word.count c)) c
          = ((K ++ [c]).map fun c => (c, word.count c),
             g ++ (K ++ [c]).map fun c => leafNode c (word.count c)) := by
        simp only [calcStep, lookup_map_pair, if_neg h]
        rw [dictInsert_fresh _ _ _ (by rw [hkeys]; exact h)]
        simp
      simp only [List.foldl_cons, hstep, firstOccsFrom, if_neg h]
      exact ih (K ++ [c]) g

theorem calculate_frequencies_eq (g : List Node) (word : List Char) :
    calculate_frequencies g word
      = ((firstOccs word).map fun c => (c, word.count c),
         g ++ (firstOccs word).map fun c => leafNode c (word.count c)) := by
  have h := calc_spec word word [] g
  simpa [calculate_frequencies, firstOccs] using h

theorem mem_firstOccsFrom (c : Char) :
    ∀ (rest K : List Char), c ∈ firstOccsFrom K rest ↔ c ∈ K ∨ c ∈ rest := by
  intro rest
  induction rest with
  | nil => intro K; simp [firstOccsFrom]
  | cons d rest ih =>
    intro K
    by_cases h : d ∈ K
    · rw [firstOccsFrom, if_pos h, ih]
      constructor
      · rintro (hc | hc)
        · exact Or.inl hc
        · exact Or.inr (List.mem_cons_of_mem _ hc)
      · rintro (hc | hc)
        · exact Or.inl hc
        · rcases List.mem_cons.1 hc with rfl | hc
          · exact Or.inl h
          · exact Or.inr hc
    · rw [firstOccsFrom, if_neg h, ih]
      simp only [List.mem_append, List.mem_singleton, List.mem_cons]
      tauto

theorem mem_firstOccs (c : Char) (w : List Char) : c ∈ firstOccs w ↔ c ∈ w := by
  rw [firstOccs, mem_firstOccsFrom]
  simp

theorem nodup_firstOccsFrom :
    ∀ (rest K : List Char), K.Nodup → (firstOccsFrom K rest).Nodup := by
  intro rest
  induction rest with
  | nil => intro K h; exact h
  | cons c rest ih =>
    intro K h
    by_cases hc : c ∈ K
    · rw [firstOccsFrom, if_pos hc]; exact ih K h
    · rw [firstOccsFrom, if_neg hc]
      exact ih (K ++ [c]) (by simp [List.nodup_append, h, hc])

theorem nodup_firstOccs (w : List Char) : (firstOccs w).Nodup :=
  nodup_firstOccsFrom w [] List.nodup_nil

theorem toFinset_firstOccs (w : List Char) : (firstOccs w).toFinset = w.toFinset := by
  apply Finset.ext
  intro c
  simp [List.mem_toFinset, mem_firstOccs]

theorem sum_count_firstOccs (w : List Char) :
    ((firstOccs w).map fun c => w.count c).sum = w.length := by
  rw [← List.sum_toFinset _ (nodup_firstOccs w), toFinset_firstOccs,
    List.sum_toFinset_count_eq_length]

/-! ### The merge loop: basic structure -/

instance : IsTotal Node nodeLE := ⟨fun a b => Nat.le_total a.freq b.freq⟩

instance : IsTrans Node nodeLE := ⟨fun _ _ _ => Nat.le_trans⟩

theorem buildStep_eq (ns : List Node) (h : 1 < ns.length) :
    ∃ l r rest, List.insertionSort nodeLE ns = l :: r :: rest ∧
      buildStep ns = rest ++ [Node.mk none (l.freq + r.freq) l r] := by
  have hlen : (List.insertionSort nodeLE ns).length = ns.length :=
    List.length_insertionSort nodeLE ns
  cases hs : List.insertionSort nodeLE ns with
  | nil => rw [hs] at hlen; simp at hlen; omega
  | cons l t =>
    cases t with
    | nil => rw [hs] at hlen; simp at hlen; omega
    | cons r rest =>
      exact ⟨l, r, rest, rfl, by rw [buildStep, hs]⟩

theorem buildStep_length (ns : List Node) (h : 1 < ns.length) :
    (buildStep ns).length = ns.length - 1 := by
  obtain ⟨l, r, rest, hs, hb⟩ := buildStep_eq ns h
  have hlen : (List.insertionSort nodeLE ns).length = ns.length :=
    List.length_insertionSort nodeLE ns
  rw [hs] at hlen
  rw [hb]
  simp at hlen ⊢
  omega

theorem buildLoopFuel_nil (fuel : Nat) : buildLoopFuel fuel [] = [] := by
  cases fuel with
  | zero => rfl
  | succ f => simp [buildLoopFuel]

theorem buildLoopFuel_congr :
    ∀ (f1 f2 : Nat) (ns : List Node), ns.length ≤ f1 → ns.length ≤ f2 →
      buildLoopFuel f1 ns = buildLoopFuel f2 ns := by
  intro f1
  induction f1 with
  | zero =>
    intro f2 ns h1 _
    have : ns = [] := List.length_eq_zero.1 (Nat.le_zero.1 h1)
    subst this
    rw [buildLoopFuel_nil, buildLoopFuel_nil]
  | succ f ih =>
    intro f2 ns h1 h2
    cases f2 with
    | zero =>
      have : ns = [] := List.length_eq_zero.1 (Nat.le_zero.1 h2)
      subst this
      rw [buildLoopFuel_nil, buildLoopFuel_nil]
    | succ g =>
      simp only [buildLoopFuel]
      by_cases hlt : 1 < ns.length
      · rw [if_pos hlt, if_pos hlt]
        have hstep := buildStep_length ns hlt
        exact ih g (buildStep ns) (by omega) (by omega)
      · rw [if_neg hlt, if_neg hlt]

theorem build_loop_step (ns : List Node) (h : 1 < ns.length) :
    build_loop ns = build_loop (buildStep ns) := by
  have hstep := buildStep_length ns h
  obtain ⟨m, hm⟩ : ∃ m, ns.length = m + 1 := ⟨ns.length - 1, by omega⟩
  rw [build_loop, hm, buildLoopFuel, if_pos h]
  rw [build_loop]
  exact buildLoopFuel_congr m (buildStep ns).length (buildStep ns) (by omega) le_rfl

theorem build_loop_fix (ns : List Node) (h : ¬ 1 < ns.length) : build_loop ns = ns := by
  rw [build_loop]
  cases hn : ns.length with
  | zero => rw [List.length_eq_zero.1 hn]; rfl
  | succ m => rw [buildLoopFuel, if_neg h]

/-- Generic invariant preservation through the merge loop. -/
theorem build_loop_inv {P : List Node → Prop}
    (hstep : ∀ ns, 1 < ns.length → P ns → P (buildStep ns)) :
    ∀ ns, P ns → P (build_loop ns) := by
  have main : ∀ (n : Nat) (ns : List Node), ns.length = n → P ns → P (build_loop ns) := by
    intro n
    induction n using Nat.strong_induction_on with
    | _ n ih =>
      intro ns hn hp
      by_cases h1 : 1 < ns.length
      · rw [build_loop_step ns h1]
        have hlen := buildStep_length ns h1
        exact ih (buildStep ns).length (by omega) (buildStep ns) rfl (hstep ns h1 hp)
      · rw [build_loop_fix ns h1]; exact hp
  intro ns
  exact main ns.length ns rfl

theorem build_loop_length_one (ns : List Node) (h : ns ≠ []) :
    ∃ root, build_loop ns = [root] := by
  have main : ∀ (n : Nat) (ns : List Node), ns.length = n → ns ≠ [] →
      ∃ root, build_loop ns = [root] := by
    intro n
    induction n using Nat.strong_induction_on with
    | _ n ih =>
      intro ns hn hne
      by_cases h1 : 1 < ns.length
      · rw [build_loop_step ns h1]
        have hlen := buildStep_length ns h1
        refine ih (buildStep ns).length (by omega) (buildStep ns) rfl ?_
        intro hnil
        rw [hnil] at hlen
        simp at hlen
        omega
      · rw [build_loop_fix ns h1]
        cases ns with
        | nil => exact absurd rfl hne
        | cons a t =>
          cases t with
          | nil => exact ⟨a, rfl⟩
          | cons b t' => simp at h1
  exact main ns.length ns rfl h

/-! ### The weight-sum invariant -/

/-- Total weight of a forest. -/
def sumFreq (ns : List Node) : Nat := (ns.map Node.freq).sum

theorem sumFreq_buildStep (ns : List Node) (h : 1 < ns.length) :
    sumFreq (buildStep ns) = sumFreq ns := by
  obtain ⟨l, r, rest, hs, hb⟩ := buildStep_eq ns h
  have hperm : List.Perm (List.insertionSort nodeLE ns) ns := List.perm_insertionSort nodeLE ns
  rw [hs] at hperm
  have hsum : sumFreq (l :: r :: rest) = sumFreq ns := (hperm.map Node.freq).sum_eq
  rw [hb]
  have hmerged : Node.freq (Node.mk none (l.freq + r.freq) l r) = l.freq + r.freq := rfl
  simp only [sumFreq, List.map_append, List.map_cons, List.sum_append, List.sum_cons,
    List.map_nil, List.sum_nil, hmerged] at hsum ⊢
  omega

theorem sumFreq_build_loop (ns : List Node) : sumFreq (build_loop ns) = sumFreq ns := by
  have := build_loop_inv (P := fun ms => sumFreq ms = sumFreq ns)
    (fun ms h hp => by
      show sumFreq (buildStep ms) = sumFreq ns
      rw [sumFreq_buildStep ms h]
      exact hp) ns rfl
  exact this

/-! ### Characters and leaf pairs of a tree -/

/-- The characters recorded at the character-bearing nodes of a tree, in
preorder (node, left, right) — the order `generate_huffman_codes` visits. -/
def Node.chars : Node → List Char
  | .null => []
  | .mk c _ l r => (match c with | some ch => [ch] | none => []) ++ l.chars ++ r.chars

/-- The (character, weight) pairs at the character-bearing nodes of a tree. -/
def Node.leafPairs : Node → List (Char × Nat)
  | .null => []
  | .mk c f l r => (match c with | some ch => [(ch, f)] | none => []) ++ l.leafPairs ++ r.leafPairs

theorem chars_eq_leafPairs (t : Node) : t.chars = t.leafPairs.map Prod.fst := by
  induction t with
  | null => rfl
  | mk c f l r ihl ihr => cases c <;> simp [Node.chars, Node.leafPairs, ihl, ihr]

theorem perm_flatten_map {α β : Type} (f : α → List β) :
    ∀ {l₁ l₂ : List α}, List.Perm l₁ l₂ →
      List.Perm (l₁.map f).flatten (l₂.map f).flatten := by
  intro l₁ l₂ h
  induction h with
  | nil => exact List.Perm.refl _
  | cons x _ ih =>
    simp only [List.map_cons, List.flatten_cons]
    exact List.Perm.append_left (f x) ih
  | swap x y t =>
    simp only [List.map_cons, List.flatten_cons]
    rw [← List.append_assoc, ← List.append_assoc]
    exact List.Perm.append_right _ List.perm_append_comm
  | trans _ _ ih₁ ih₂ => exact ih₁.trans ih₂

theorem flatten_map_buildStep {β : Type} (f : Node → List β)
    (hf : ∀ fr l r, f (Node.mk none fr l r) = f l ++ f r)
    (ns : List Node) (h : 1 < ns.length) :
    List.Perm ((buildStep ns).map f).flatten ((ns.map f).flatten) := by
  obtain ⟨l, r, rest, hs, hb⟩ := buildStep_eq ns h
  have hperm : List.Perm (List.insertionSort nodeLE ns) ns := List.perm_insertionSort nodeLE ns
  rw [hs] at hperm
  have h1 : List.Perm ((buildStep ns).map f).flatten (((l :: r :: rest).map f).flatten) := by
    rw [hb]
    simp only [List.map_append, List.map_cons, List.map_nil, List.flatten_append,
      List.flatten_cons, List.flatten_nil, List.append_nil, hf]
    exact List.Perm.trans List.perm_append_comm (by rw [List.append_assoc])
  exact h1.trans (perm_flatten_map f hperm)

/-- All characters in a forest. -/
def charsOf (ns : List Node) : List Char := (ns.map Node.chars).flatten

/-- All (character, weight) leaf pairs in a forest. -/
def leafPairsOf (ns : List Node) : List (Char × Nat) := (ns.map Node.leafPairs).flatten

theorem charsOf_build_loop (ns : List Node) :
    List.Perm (charsOf (build_loop ns)) (charsOf ns) := by
  exact build_loop_inv (P := fun ms => List.Perm (charsOf ms) (charsOf ns))
    (fun ms h hp => by
      show List.Perm (charsOf (buildStep ms)) (charsOf ns)
      exact List.Perm.trans
        (flatten_map_buildStep Node.chars (fun fr l r => by simp [Node.chars]) ms h) hp)
    ns (List.Perm.refl _)

theorem leafPairsOf_build_loop (ns : List Node) :
    List.Perm (leafPairsOf (build_loop ns)) (leafPairsOf ns) := by
  exact build_loop_inv (P := fun ms => List.Perm (leafPairsOf ms) (leafPairsOf ns))
    (fun ms h hp => by
      show List.Perm (leafPairsOf (buildStep ms)) (leafPairsOf ns)
      exact List.Perm.trans
        (flatten_map_buildStep Node.leafPairs (fun fr l r => by simp [Node.leafPairs]) ms h) hp)
    ns (List.Perm.refl _)

theorem charsOf_leaves (K : List Char) (f : Char → Nat) :
    charsOf (K.map fun c => leafNode c (f c)) = K := by
  induction K with
  | nil => rfl
  | cons c K ih =>
    show Node.chars (leafNode c (f c)) ++ charsOf (K.map fun c => leafNode c (f c)) = c :: K
    rw [ih]
    rfl

theorem leafPairsOf_leaves (K : List Char) (f : Char → Nat) :
    leafPairsOf (K.map fun c => leafNode c (f c)) = K.map fun c => (c, f c) := by
  induction K with
  | nil => rfl
  | cons c K ih =>
    show Node.leafPairs (leafNode c (f c)) ++ leafPairsOf (K.map fun c => leafNode c (f c))
        = (c, f c) :: K.map fun c => (c, f c)
    rw [ih]
    rfl

/-! ### Structural well-formedness of built trees -/

/-- Shape invariant of every tree the builder manipulates: a node carrying a
character is a leaf object (both children `None`); a merged node carries no
character, has two non-null children whose weights are in order (left ≤
right, because the two minima are popped from a sorted list), and its weight
is the sum of its children's weights. -/
def Node.WF : Node → Prop
  | .null => True
  | .mk c f l r =>
    (match c with
     | some _ => l = Node.null ∧ r = Node.null
     | none => l ≠ Node.null ∧ r ≠ Node.null ∧ l.freq ≤ r.freq ∧ f = l.freq + r.freq)
    ∧ l.WF ∧ r.WF

/-- All members of a forest are non-null well-formed trees. -/
def allWF (ns : List Node) : Prop := ∀ t ∈ ns, t ≠ Node.null ∧ t.WF

theorem allWF_buildStep (ns : List Node) (h : 1 < ns.length) (hwf : allWF ns) :
    allWF (buildStep ns) := by
  obtain ⟨l, r, rest, hs, hb⟩ := buildStep_eq ns h
  have hperm : List.Perm (List.insertionSort nodeLE ns) ns := List.perm_insertionSort nodeLE ns
  rw [hs] at hperm
  have hsorted : List.Sorted nodeLE (l :: r :: rest) := by
    have := List.sorted_insertionSort nodeLE ns
    rwa [hs] at this
  have hmem : ∀ t ∈ l :: r :: rest, t ≠ Node.null ∧ t.WF := fun t ht =>
    hwf t (hperm.mem_iff.1 ht)
  have hl := hmem l (by simp)
  have hr := hmem r (by simp)
  have hlr : l.freq ≤ r.freq := List.rel_of_sorted_cons hsorted r (by simp)
  rw [hb]
  intro t ht
  rcases List.mem_append.1 ht with hrest | hm
  · exact hmem t (by simp [hrest])
  · have : t = Node.mk none (l.freq + r.freq) l r := by simpa using hm
    subst this
    refine ⟨by simp, ?_⟩
    show (l ≠ Node.null ∧ r ≠ Node.null ∧ l.freq ≤ r.freq ∧
        l.freq + r.freq = l.freq + r.freq) ∧ l.WF ∧ r.WF
    exact ⟨⟨hl.1, hr.1, hlr, rfl⟩, hl.2, hr.2⟩

theorem allWF_build_loop (ns : List Node) (hwf : allWF ns) : allWF (build_loop ns) :=
  build_loop_inv (P := allWF) allWF_buildStep ns hwf

theorem allWF_leaves (K : List Char) (f : Char → Nat) :
    allWF (K.map fun c => leafNode c (f c)) := by
  intro t ht
  simp only [List.mem_map] at ht
  obtain ⟨c, _, rfl⟩ := ht
  refine ⟨by simp [leafNode], ?_⟩
  show (Node.null = Node.null ∧ Node.null = Node.null) ∧ Node.WF Node.null ∧ Node.WF Node.null
  exact ⟨⟨rfl, rfl⟩, trivial, trivial⟩

/-! ### The code generator as a pure traversal

`generate_huffman_codes` threads the `codes` dict through the traversal.
When all recorded keys are fresh, every `codes[ch] = cur` assignment appends,
so the result is the input dict followed by the traversal's entries. -/

/-- The (character, code) entries produced by traversing `t` with current
code `cur`, in visiting order (node, then left subtree, then right). -/
def pathList : Node → List Char → List (Char × List Char)
  | Node.null, _ => []
  | Node.mk c _ l r, cur =>
    (match c with | some ch => [(ch, cur)] | none => []) ++
      pathList l (cur ++ ['0']) ++ pathList r (cur ++ ['1'])

theorem pathList_keys (t : Node) : ∀ cur, (pathList t cur).map Prod.fst = t.chars := by
  induction t with
  | null => intro cur; rfl
  | mk c f l r ihl ihr => intro cur; cases c <;> simp [pathList, Node.chars, ihl, ihr]

theorem generate_eq_pathList (t : Node) :
    ∀ (cur : List Char) (codes : List (Char × List Char)),
      (codes.map Prod.fst ++ t.chars).Nodup →
      generate_huffman_codes t cur codes = codes ++ pathList t cur := by
  induction t with
  | null => intro cur codes h; simp [generate_huffman_codes, pathList]
  | mk c f l r ihl ihr =>
    intro cur codes h
    cases c with
    | none =>
      have echars : Node.chars (Node.mk none f l r) = l.chars ++ r.chars := rfl
      rw [echars] at h
      have e : generate_huffman_codes (Node.mk none f l r) cur codes
          = generate_huffman_codes r (cur ++ ['1'])
              (generate_huffman_codes l (cur ++ ['0']) codes) := rfl
      have hln : (codes.map Prod.fst ++ l.chars).Nodup :=
        ((List.sublist_append_left l.chars r.chars).append_left
          (codes.map Prod.fst)).nodup h
      have hl := ihl (cur ++ ['0']) codes hln
      have hrn : ((codes ++ pathList l (cur ++ ['0'])).map Prod.fst ++ r.chars).Nodup := by
        rw [List.map_append, pathList_keys, List.append_assoc]
        exact h
      have hr := ihr (cur ++ ['1']) (codes ++ pathList l (cur ++ ['0'])) hrn
      rw [e, hl, hr]
      show codes ++ pathList l (cur ++ ['0']) ++ pathList r (cur ++ ['1'])
          = codes ++ ([] ++ pathList l (cur ++ ['0']) ++ pathList r (cur ++ ['1']))
      simp [List.append_assoc]
    | some ch =>
      have echars : Node.chars (Node.mk (some ch) f l r) = ch :: (l.chars ++ r.chars) := by
        show [ch] ++ l.chars ++ r.chars = ch :: (l.chars ++ r.chars)
        simp
      rw [echars] at h
      have hfresh : ch ∉ codes.map Prod.fst := by
        intro hmem
        rcases List.nodup_append.1 h with ⟨_, _, hdisj⟩
        exact hdisj hmem (by simp)
      have e : generate_huffman_codes (Node.mk (some ch) f l r) cur codes
          = generate_huffman_codes r (cur ++ ['1'])
              (generate_huffman_codes l (cur ++ ['0']) (dictInsert codes ch cur)) := rfl
      have hins : dictInsert codes ch cur = codes ++ [(ch, cur)] :=
        dictInsert_fresh codes ch cur hfresh
      have hbig : ((codes.map Prod.fst ++ [ch]) ++ (l.chars ++ r.chars)).Nodup := by
        have : (codes.map Prod.fst ++ [ch]) ++ (l.chars ++ r.chars)
            = codes.map Prod.fst ++ ch :: (l.chars ++ r.chars) := by
          simp
        rw [this]
        exact h
      have hln : ((codes ++ [(ch, cur)]).map Prod.fst ++ l.chars).Nodup := by
        rw [List.map_append]
        refine List.Nodup.sublist ?_ hbig
        exact (List.sublist_append_left l.chars r.chars).append_left _
      have hl := ihl (cur ++ ['0']) (codes ++ [(ch, cur)]) hln
      have hrn : (((codes ++ [(ch, cur)]) ++ pathList l (cur ++ ['0'])).map Prod.fst
          ++ r.chars).Nodup := by
        rw [List.map_append, pathList_keys, List.map_append, List.append_assoc]
        simpa [List.append_assoc] using hbig
      have hr := ihr (cur ++ ['1']) ((codes ++ [(ch, cur)]) ++ pathList l (cur ++ ['0'])) hrn
      rw [e, hins, hl, hr]
      show codes ++ [(ch, cur)] ++ pathList l (cur ++ ['0']) ++ pathList r (cur ++ ['1'])
          = codes ++ ([(ch, cur)] ++ pathList l (cur ++ ['0']) ++ pathList r (cur ++ ['1']))
      simp [List.append_assoc]

/-! ### Initial segments of code strings

`starts s t` says the list `t` begins with the list `s` — "s is an initial
segment of t" (with `starts s s` holding).  The spec's prefix-free property
states that no symbol's code is such an initial segment of another symbol's
code. -/

/-- `t` begins with `s` (including `t = s`). -/
def starts {α : Type} (s t : List α) : Prop := ∃ d, s ++ d = t

theorem starts_refl {α : Type} (s : List α) : starts s s := ⟨[], List.append_nil s⟩

theorem starts_nil {α : Type} (t : List α) : starts [] t := ⟨t, rfl⟩

theorem starts_cons_iff {α : Type} (a b : α) (s t : List α) :
    starts (a :: s) (b :: t) ↔ a = b ∧ starts s t := by
  constructor
  · rintro ⟨d, h⟩
    simp only [List.cons_append, List.cons.injEq] at h
    exact ⟨h.1, d, h.2⟩
  · rintro ⟨rfl, d, h⟩
    exact ⟨d, by simp [h]⟩

theorem starts_append_cancel {α : Type} (u s t : List α) :
    starts (u ++ s) (u ++ t) → starts s t := by
  rintro ⟨d, h⟩
  rw [List.append_assoc] at h
  exact ⟨d, List.append_cancel_left h⟩

/-- Executable version of `starts`. -/
def startsB {α : Type} [DecidableEq α] : List α → List α → Bool
  | [], _ => true
  | _ :: _, [] => false
  | a :: s, b :: t => decide (a = b) && startsB s t

theorem startsB_iff {α : Type} [DecidableEq α] :
    ∀ (s t : List α), startsB s t = true ↔ starts s t := by
  intro s
  induction s with
  | nil => intro t; simpa [startsB] using starts_nil t
  | cons a s ih =>
    intro t
    cases t with
    | nil =>
      simp only [startsB]
      constructor
      · intro h; exact absurd h (by simp)
      · rintro ⟨d, h⟩; simp at h
    | cons b t =>
      simp [startsB, starts_cons_iff, ih t, And.comm]

instance {α : Type} [DecidableEq α] (s t : List α) : Decidable (starts s t) :=
  decidable_of_iff _ (startsB_iff s t)

/-- Every code produced while traversing below `cur` extends `cur`. -/
theorem pathList_extends (t : Node) :
    ∀ cur p, p ∈ pathList t cur → ∃ d, p.2 = cur ++ d := by
  induction t with
  | null => intro cur p hp; simp [pathList] at hp
  | mk c f l r ihl ihr =>
    intro cur p hp
    rcases List.mem_append.1 hp with hp' | hpr
    · rcases List.mem_append.1 hp' with hp0 | hpl
      · cases c with
        | none => simp at hp0
        | some ch =>
          have : p = (ch, cur) := by simpa using hp0
          exact ⟨[], by simp [this]⟩
      · obtain ⟨d, hd⟩ := ihl (cur ++ ['0']) p hpl
        exact ⟨'0' :: d, by simp [hd]⟩
    · obtain ⟨d, hd⟩ := ihr (cur ++ ['1']) p hpr
      exact ⟨'1' :: d, by simp [hd]⟩

/-- In a well-formed tree, codes of distinct characters are never initial
segments of one another. -/
theorem pathList_no_starts (t : Node) (hwf : t.WF) :
    ∀ cur p q, p ∈ pathList t cur → q ∈ pathList t cur → p.1 ≠ q.1 →
      ¬ starts p.2 q.2 := by
  induction t with
  | null => intro cur p q hp; simp [pathList] at hp
  | mk c f l r ihl ihr =>
    intro cur p q hp hq hne
    have hwl : l.WF := hwf.2.1
    have hwr : r.WF := hwf.2.2
    cases c with
    | some ch =>
      have hnull : l = Node.null ∧ r = Node.null := hwf.1
      rw [hnull.1, hnull.2] at hp hq
      have hp' : p = (ch, cur) := by simpa [pathList] using hp
      have hq' : q = (ch, cur) := by simpa [pathList] using hq
      rw [hp', hq'] at hne
      exact absurd rfl hne
    | none =>
      have hp' : p ∈ pathList l (cur ++ ['0']) ∨ p ∈ pathList r (cur ++ ['1']) := by
        simpa [pathList] using hp
      have hq' : q ∈ pathList l (cur ++ ['0']) ∨ q ∈ pathList r (cur ++ ['1']) := by
        simpa [pathList] using hq
      rcases hp' with hpl | hpr
      · rcases hq' with hql | hqr
        · exact ihl hwl (cur ++ ['0']) p q hpl hql hne
        · obtain ⟨dp, hdp⟩ := pathList_extends l (cur ++ ['0']) p hpl
          obtain ⟨dq, hdq⟩ := pathList_extends r (cur ++ ['1']) q hqr
          rw [hdp, hdq]
          intro hst
          have h1 : starts (cur ++ '0' :: dp) (cur ++ '1' :: dq) := by
            simpa [List.append_assoc] using hst
          have h2 := starts_append_cancel cur _ _ h1
          rw [starts_cons_iff] at h2
          exact absurd h2.1 (by decide)
      · rcases hq' with hql | hqr
        · obtain ⟨dp, hdp⟩ := pathList_extends r (cur ++ ['1']) p hpr
          obtain ⟨dq, hdq⟩ := pathList_extends l (cur ++ ['0']) q hql
          rw [hdp, hdq]
          intro hst
          have h1 : starts (cur ++ '1' :: dp) (cur ++ '0' :: dq) := by
            simpa [List.append_assoc] using hst
          have h2 := starts_append_cancel cur _ _ h1
          rw [starts_cons_iff] at h2
          exact absurd h2.1 (by decide)
        · exact ihr hwr (cur ++ ['1']) p q hpr hqr hne

/-! ### Cost of a tree

`sum over symbols of freq(sym) * len(code(sym))` for the generated codes
equals the sum of the weights of the merged nodes, which is exactly what the
merge loop pays: each iteration creates one merged node. -/

/-- Sum of the weights of the merged (char-less) nodes of a tree. -/
def treeCost : Node → Nat
  | Node.null => 0
  | Node.mk none f l r => f + treeCost l + treeCost r
  | Node.mk (some _) _ l r => treeCost l + treeCost r

/-- Sum of the weights of the char-bearing nodes of a tree. -/
def leafSum : Node → Nat
  | Node.null => 0
  | Node.mk none _ l r => leafSum l + leafSum r
  | Node.mk (some _) f _ _ => f

/-- Depth-weighted cost of the subtree `t` whose root sits at depth `d`:
each char-bearing node contributes its weight times its depth. -/
def pathCost : Node → Nat → Nat
  | Node.null, _ => 0
  | Node.mk none _ l r, d => pathCost l (d + 1) + pathCost r (d + 1)
  | Node.mk (some _) f l r, d => f * d + pathCost l (d + 1) + pathCost r (d + 1)

theorem freq_eq_leafSum (t : Node) (h : t.WF) : t.freq = leafSum t := by
  induction t with
  | null => rfl
  | mk c f l r ihl ihr =>
    cases c with
    | some ch => rfl
    | none =>
      have hsum : f = l.freq + r.freq := h.1.2.2.2
      have hl := ihl h.2.1
      have hr := ihr h.2.2
      show f = leafSum l + leafSum r
      rw [hsum, hl, hr]

theorem pathCost_eq (t : Node) (h : t.WF) :
    ∀ d, pathCost t d = treeCost t + d * leafSum t := by
  induction t with
  | null => intro d; rfl
  | mk c f l r ihl ihr =>
    intro d
    cases c with
    | some ch =>
      have hnull : l = Node.null ∧ r = Node.null := h.1
      rw [hnull.1, hnull.2]
      show f * d + 0 + 0 = 0 + 0 + d * f
      ring
    | none =>
      have hsum : f = l.freq + r.freq := h.1.2.2.2
      have hfl := freq_eq_leafSum l h.2.1
      have hfr := freq_eq_leafSum r h.2.2
      show pathCost l (d + 1) + pathCost r (d + 1)
          = f + treeCost l + treeCost r + d * (leafSum l + leafSum r)
      rw [ihl h.2.1, ihr h.2.2, hsum, hfl, hfr]
      ring

/-- The produced entries' cost, with each character weighted by an external
frequency function, equals the tree's depth-weighted cost — provided the
weight stored at each char-bearing node agrees with that function. -/
theorem pathList_cost (wt : Char → Nat) (t : Node)
    (hw : ∀ pr ∈ t.leafPairs, pr.2 = wt pr.1) :
    ∀ cur, ((pathList t cur).map fun p => wt p.1 * p.2.length).sum
      = pathCost t cur.length := by
  induction t with
  | null => intro cur; rfl
  | mk c f l r ihl ihr =>
    intro cur
    cases c with
    | some ch =>
      have hch : f = wt ch := hw (ch, f) (by simp [Node.leafPairs])
      have hwl : ∀ pr ∈ l.leafPairs, pr.2 = wt pr.1 := fun pr hpr =>
        hw pr (by simp [Node.leafPairs, hpr])
      have hwr : ∀ pr ∈ r.leafPairs, pr.2 = wt pr.1 := fun pr hpr =>
        hw pr (by simp [Node.leafPairs, hpr])
      show (((ch, cur) :: (pathList l (cur ++ ['0']) ++ pathList r (cur ++ ['1']))).map
          fun p => wt p.1 * p.2.length).sum = f * cur.length
            + pathCost l (cur.length + 1) + pathCost r (cur.length + 1)
      rw [List.map_cons, List.sum_cons, List.map_append, List.sum_append,
        ihl hwl (cur ++ ['0']), ihr hwr (cur ++ ['1'])]
      simp [hch]
      ring
    | none =>
      have hwl : ∀ pr ∈ l.leafPairs, pr.2 = wt pr.1 := fun pr hpr =>
        hw pr (by simp [Node.leafPairs, hpr])
      have hwr : ∀ pr ∈ r.leafPairs, pr.2 = wt pr.1 := fun pr hpr =>
        hw pr (by simp [Node.leafPairs, hpr])
      show ((pathList l (cur ++ ['0']) ++ pathList r (cur ++ ['1'])).map
          fun p => wt p.1 * p.2.length).sum
          = pathCost l (cur.length + 1) + pathCost r (cur.length + 1)
      rw [List.map_append, List.sum_append, ihl hwl (cur ++ ['0']), ihr hwr (cur ++ ['1'])]
      simp

/-! ### The cost the merge loop pays, as a function of the weight list -/

/-- Total cost the merge loop accrues on a list of weights: each iteration
sorts, removes the two smallest weights, pays their sum, and appends it. -/
def huffCostW (ws : List Nat) : Nat :=
  match h : List.insertionSort (fun a b : Nat => a ≤ b) ws with
  | [] => 0
  | [_] => 0
  | a :: b :: rest => (a + b) + huffCostW (rest ++ [a + b])
termination_by ws.length
decreasing_by
  have hlen : (List.insertionSort (fun a b : Nat => a ≤ b) ws).length = ws.length :=
    List.length_insertionSort _ ws
  rw [h] at hlen
  simp at hlen ⊢
  omega

theorem huffCostW_eq_nil (ws : List Nat)
    (h : List.insertionSort (fun a b : Nat => a ≤ b) ws = []) : huffCostW ws = 0 := by
  unfold huffCostW
  split
  · rfl
  · rfl
  · rename_i a b rest heq
    rw [h] at heq
    exact absurd heq (by simp)

theorem huffCostW_eq_single (ws : List Nat) (w : Nat)
    (h : List.insertionSort (fun a b : Nat => a ≤ b) ws = [w]) : huffCostW ws = 0 := by
  unfold huffCostW
  split
  · rfl
  · rfl
  · rename_i a b rest heq
    rw [h] at heq
    exact absurd heq (by simp)

theorem huffCostW_eq_cons (ws : List Nat) (a b : Nat) (rest : List Nat)
    (h : List.insertionSort (fun x y : Nat => x ≤ y) ws = a :: b :: rest) :
    huffCostW ws = (a + b) + huffCostW (rest ++ [a + b]) := by
  conv_lhs => unfold huffCostW
  split
  · rename_i heq; rw [h] at heq; exact absurd heq (by simp)
  · rename_i w heq; rw [h] at heq; exact absurd heq (by simp)
  · rename_i a' b' rest' heq
    rw [h] at heq
    injection heq with h1 h2
    injection h2 with h2 h3
    rw [h1, h2, h3]

theorem insertionSort_eq_of_perm (ws ws' : List Nat) (h : List.Perm ws ws') :
    List.insertionSort (fun a b : Nat => a ≤ b) ws
      = List.insertionSort (fun a b : Nat => a ≤ b) ws' := by
  exact @List.eq_of_perm_of_sorted ℕ (fun a b : Nat => a ≤ b) _ _ _
    (((List.perm_insertionSort _ ws).trans h).trans
      (List.perm_insertionSort _ ws').symm)
    (List.sorted_insertionSort _ ws)
    (List.sorted_insertionSort _ ws')

theorem huffCostW_perm (ws ws' : List Nat) (h : List.Perm ws ws') :
    huffCostW ws = huffCostW ws' := by
  have hs := insertionSort_eq_of_perm ws ws' h
  cases hcase : List.insertionSort (fun a b : Nat => a ≤ b) ws with
  | nil => rw [huffCostW_eq_nil ws hcase, huffCostW_eq_nil ws' (by rw [← hs, hcase])]
  | cons a t =>
    cases t with
    | nil =>
      rw [huffCostW_eq_single ws a hcase, huffCostW_eq_single ws' a (by rw [← hs, hcase])]
    | cons b rest =>
      rw [huffCostW_eq_cons ws a b rest hcase,
        huffCostW_eq_cons ws' a b rest (by rw [← hs, hcase])]

/-! ### The loop cost invariant: tree cost accrued plus cost still to pay -/

/-- Total cost of the merged nodes already created in a forest. -/
def totalTC (ns : List Node) : Nat := (ns.map treeCost).sum

theorem map_freq_insertionSort (ns : List Node) :
    (List.insertionSort nodeLE ns).map Node.freq
      = List.insertionSort (fun a b : Nat => a ≤ b) (ns.map Node.freq) := by
  exact List.map_insertionSort nodeLE (fun a b : Nat => a ≤ b) Node.freq ns
    (fun a _ b _ => Iff.rfl)

theorem cost_inv_buildStep (ns : List Node) (h : 1 < ns.length) :
    totalTC (buildStep ns) + huffCostW ((buildStep ns).map Node.freq)
      = totalTC ns + huffCostW (ns.map Node.freq) := by
  obtain ⟨l, r, rest, hs, hb⟩ := buildStep_eq ns h
  have hperm : List.Perm (List.insertionSort nodeLE ns) ns := List.perm_insertionSort nodeLE ns
  rw [hs] at hperm
  have hsortw : List.insertionSort (fun a b : Nat => a ≤ b) (ns.map Node.freq)
      = l.freq :: r.freq :: rest.map Node.freq := by
    rw [← map_freq_insertionSort, hs]
    rfl
  have hw : huffCostW (ns.map Node.freq)
      = (l.freq + r.freq) + huffCostW (rest.map Node.freq ++ [l.freq + r.freq]) :=
    huffCostW_eq_cons _ _ _ _ hsortw
  have hmapstep : (buildStep ns).map Node.freq
      = rest.map Node.freq ++ [l.freq + r.freq] := by
    rw [hb]
    simp [Node.freq]
  have htc : totalTC ns = treeCost l + treeCost r + totalTC rest := by
    have := (hperm.map treeCost).sum_eq
    simp only [List.map_cons, List.sum_cons] at this
    rw [totalTC, ← this, totalTC]
    omega
  have htcstep : totalTC (buildStep ns)
      = totalTC rest + ((l.freq + r.freq) + treeCost l + treeCost r) := by
    rw [hb, totalTC, List.map_append]
    simp only [List.map_cons, List.map_nil, List.sum_append, List.sum_cons, List.sum_nil]
    have : treeCost (Node.mk none (l.freq + r.freq) l r)
        = (l.freq + r.freq) + treeCost l + treeCost r := rfl
    rw [this, totalTC]
    omega
  rw [hmapstep, hw, htc, htcstep]
  omega

theorem cost_inv_build_loop (ns : List Node) :
    totalTC (build_loop ns) + huffCostW ((build_loop ns).map Node.freq)
      = totalTC ns + huffCostW (ns.map Node.freq) := by
  exact build_loop_inv
    (P := fun ms => totalTC ms + huffCostW (ms.map Node.freq)
      = totalTC ns + huffCostW (ns.map Node.freq))
    (fun ms h hp => by
      show totalTC (buildStep ms) + huffCostW ((buildStep ms).map Node.freq)
          = totalTC ns + huffCostW (ns.map Node.freq)
      rw [cost_inv_buildStep ms h]
      exact hp)
    ns rfl

theorem treeCost_leaves (K : List Char) (f : Char → Nat) :
    totalTC (K.map fun c => leafNode c (f c)) = 0 := by
  induction K with
  | nil => rfl
  | cons c K ih =>
    show treeCost (leafNode c (f c)) + totalTC (K.map fun c => leafNode c (f c)) = 0
    rw [ih]
    rfl

/-- The tree the loop builds costs exactly `huffCostW` of the initial
weights. -/
theorem treeCost_root (ns : List Node) (root : Node) (hloop : build_loop ns = [root])
    (hleaf : totalTC ns = 0) : treeCost root = huffCostW (ns.map Node.freq) := by
  have h := cost_inv_build_loop ns
  rw [hloop, hleaf] at h
  have h1 : totalTC [root] = treeCost root := by simp [totalTC]
  have h2 : huffCostW [root.freq] = 0 := by
    apply huffCostW_eq_single _ root.freq
    rfl
  simp only [List.map_cons, List.map_nil] at h
  rw [h1, h2] at h
  omega

/-! ### The pipeline on a non-empty word -/

theorem firstOccs_ne_nil (word : List Char) (h : word ≠ []) : firstOccs word ≠ [] := by
  cases word with
  | nil => exact absurd rfl h
  | cons c w =>
    have : c ∈ firstOccs (c :: w) := (mem_firstOccs c (c :: w)).2 (by simp)
    exact List.ne_nil_of_mem this

/-- Everything the claims need about a successful run of the pipeline:
the loop ends with a single root; the output is the pure traversal of that
root; the root is well-formed; its characters are a permutation of the
distinct characters of the word; its leaf weights are the word's counts; and
its cost is the loop's weight cost. -/
theorem pipeline_spec (word : List Char) (hne : word ≠ []) :
    ∃ root, build_loop ((calculate_frequencies [] word).2) = [root]
      ∧ huffman_encoding word = some (pathList root [])
      ∧ root.WF
      ∧ List.Perm root.chars (firstOccs word)
      ∧ List.Perm root.leafPairs ((firstOccs word).map fun c => (c, word.count c))
      ∧ treeCost root = huffCostW ((firstOccs word).map fun c => word.count c) := by
  have hcalc := calculate_frequencies_eq [] word
  set ns0 := (calculate_frequencies [] word).2 with hns0
  have hns0eq : ns0 = (firstOccs word).map fun c => leafNode c (word.count c) := by
    rw [hns0, hcalc]
    simp
  have hfo : firstOccs word ≠ [] := firstOccs_ne_nil word hne
  have hne0 : ns0 ≠ [] := by
    rw [hns0eq]
    simpa using hfo
  obtain ⟨root, hloop⟩ := build_loop_length_one ns0 hne0
  have hcharsOf : List.Perm (charsOf [root]) (charsOf ns0) := by
    rw [← hloop]
    exact charsOf_build_loop ns0
  have hchars : List.Perm root.chars (firstOccs word) := by
    have h1 : charsOf [root] = root.chars := by simp [charsOf]
    have h2 : charsOf ns0 = firstOccs word := by rw [hns0eq]; exact charsOf_leaves _ _
    rw [h1, h2] at hcharsOf
    exact hcharsOf
  have hlpOf : List.Perm (leafPairsOf [root]) (leafPairsOf ns0) := by
    rw [← hloop]
    exact leafPairsOf_build_loop ns0
  have hlp : List.Perm root.leafPairs ((firstOccs word).map fun c => (c, word.count c)) := by
    have h1 : leafPairsOf [root] = root.leafPairs := by simp [leafPairsOf]
    have h2 : leafPairsOf ns0 = (firstOccs word).map fun c => (c, word.count c) := by
      rw [hns0eq]
      exact leafPairsOf_leaves _ _
    rw [h1, h2] at hlpOf
    exact hlpOf
  have hwf : root.WF := by
    have := allWF_build_loop ns0 (by rw [hns0eq]; exact allWF_leaves _ _)
    rw [hloop] at this
    exact (this root (by simp)).2
  have hnodup : root.chars.Nodup := hchars.nodup_iff.2 (nodup_firstOccs word)
  have hgen : generate_huffman_codes root [] [] = pathList root [] := by
    have := generate_eq_pathList root [] [] (by simpa using hnodup)
    simpa using this
  have henc : huffman_encoding word = some (pathList root []) := by
    rw [huffman_encoding, huffman_encoding_global]
    simp only [← hns0, hloop, List.head?_cons]
    rw [hgen]
  have hmapfreq : ns0.map Node.freq = (firstOccs word).map fun c => word.count c := by
    rw [hns0eq, List.map_map]
    rfl
  have hcost : treeCost root = huffCostW ((firstOccs word).map fun c => word.count c) := by
    rw [← hmapfreq]
    exact treeCost_root ns0 root hloop (by rw [hns0eq]; exact treeCost_leaves _ _)
  exact ⟨root, hloop, henc, hwf, hchars, hlp, hcost⟩

/-! ### Claim C10's invariant, stated on its own -/

theorem leafNode_WF (c : Char) (f : Nat) : (leafNode c f).WF := by
  show (Node.null = Node.null ∧ Node.null = Node.null) ∧ Node.WF Node.null ∧ Node.WF Node.null
  exact ⟨⟨rfl, rfl⟩, trivial, trivial⟩

theorem allWF_leaf_map (freqs : List (Char × Nat)) :
    allWF (freqs.map fun p => leafNode p.1 p.2) := by
  intro t ht
  simp only [List.mem_map] at ht
  obtain ⟨p, _, rfl⟩ := ht
  exact ⟨by simp [leafNode], leafNode_WF p.1 p.2⟩

/-- Every merged (char-less) node of the tree has two non-null children in
weight order (left ≤ right). -/
def internalsOK : Node → Prop
  | Node.null => True
  | Node.mk c _ l r =>
    (c = none → l ≠ Node.null ∧ r ≠ Node.null ∧ l.freq ≤ r.freq)
    ∧ internalsOK l ∧ internalsOK r

theorem wf_internalsOK (t : Node) (h : t.WF) : internalsOK t := by
  induction t with
  | null => trivial
  | mk c f l r ihl ihr =>
    refine ⟨?_, ihl h.2.1, ihr h.2.2⟩
    intro hcnone
    subst hcnone
    exact ⟨h.1.1, h.1.2.1, h.1.2.2.1⟩

/-! ### Claims -/

/-- Claim C7: for every input sequence, the frequency counter maps each
distinct symbol of the sequence to its number of occurrences, has no entries
for other symbols, the counts sum to the sequence length, and the length-0
input yields an empty mapping. -/
theorem claim_C7 :
    (calculate_frequencies [] []).1 = [] ∧
    ∀ word : List Char,
      (∀ c ∈ word, ((calculate_frequencies [] word).1).lookup c = some (word.count c)) ∧
      (∀ p ∈ (calculate_frequencies [] word).1, p.1 ∈ word) ∧
      (((calculate_frequencies [] word).1).map Prod.snd).sum = word.length := by
  refine ⟨rfl, ?_⟩
  intro word
  have hc := calculate_frequencies_eq [] word
  refine ⟨?_, ?_, ?_⟩
  · intro c hcw
    rw [hc]
    show ((firstOccs word).map fun c => (c, word.count c)).lookup c = some (word.count c)
    rw [lookup_map_pair, if_pos ((mem_firstOccs c word).2 hcw)]
  · intro p hp
    rw [hc] at hp
    simp only [List.mem_map] at hp
    obtain ⟨c, hcf, rfl⟩ := hp
    exact (mem_firstOccs c word).1 hcf
  · rw [hc]
    show (((firstOccs word).map fun c => (c, word.count c)).map Prod.snd).sum = word.length
    rw [List.map_map]
    exact sum_count_firstOccs word

/-- Claim C7 witness: on the concrete input "aba" the counter reports two
occurrences of 'a'. -/
theorem claim_C7_witness :
    ((calculate_frequencies [] ['a', 'b', 'a']).1).lookup 'a' = some 2 :=
  (claim_C7.2 ['a', 'b', 'a']).1 'a' (by decide)

/-- Claim C4: calling the tree builder on an empty frequency mapping (the
empty-input case) fails — `nodes[0]` raises, modelled as `none` — rather
than returning a tree; the whole pipeline on the empty input also fails. -/
theorem claim_C4 : build_huffman_tree [] = none ∧ huffman_encoding [] = none :=
  ⟨rfl, rfl⟩

/-- Claim C5 counterexample: calling the code generator with a null root
does not fail — it returns normally with the codes dict unchanged. -/
theorem claim_C5_counterexample : generate_huffman_codes Node.null [] [] = [] := rfl

/-- Claim C5 (amended): calling the code generator with a null root returns
immediately, leaving the code mapping unchanged, instead of failing. -/
theorem claim_C5 :
    ∀ (cur : List Char) (codes : List (Char × List Char)),
      generate_huffman_codes Node.null cur codes = codes :=
  fun _ _ => rfl

/-- Claim C3 (the code bug): on the single-symbol input "aaaa" the pipeline
returns the mapping {'a': ""} — the symbol's code is the empty string, not
the non-empty (≥ 1 bit) code the spec requires. -/
theorem claim_C3 : huffman_encoding ['a', 'a', 'a', 'a'] = some [('a', [])] := by decide

/-- Claim C6: for every non-empty frequency mapping, the weight of the root
returned by the builder equals the sum of all frequency values. -/
theorem claim_C6 (freqs : List (Char × Nat)) (h : freqs ≠ []) :
    ∃ root, build_huffman_tree (freqs.map fun p => leafNode p.1 p.2) = some root
      ∧ root.freq = (freqs.map Prod.snd).sum := by
  have hne : freqs.map (fun p => leafNode p.1 p.2) ≠ [] := by simpa using h
  obtain ⟨root, hloop⟩ := build_loop_length_one _ hne
  refine ⟨root, by rw [build_huffman_tree, hloop]; rfl, ?_⟩
  have hsum := sumFreq_build_loop (freqs.map fun p => leafNode p.1 p.2)
  rw [hloop] at hsum
  have h1 : sumFreq [root] = root.freq := by simp [sumFreq]
  have h2 : sumFreq (freqs.map fun p => leafNode p.1 p.2) = (freqs.map Prod.snd).sum := by
    rw [sumFreq, List.map_map]
    rfl
  rw [h1, h2] at hsum
  exact hsum

/-- Claim C6 witness: at the mapping {a: 2, b: 3} the root's weight is 5. -/
theorem claim_C6_witness :
    ∃ root, build_huffman_tree ([('a', 2), ('b', 3)].map fun p => leafNode p.1 p.2)
        = some root
      ∧ root.freq = ([('a', 2), ('b', 3)].map Prod.snd).sum :=
  claim_C6 [('a', 2), ('b', 3)] (by decide)

/-- Claim C10: on a mapping with at least two entries, every merged
(char-less) node of the returned tree has exactly two (non-null) children,
and the left child's weight is at most the right child's. -/
theorem claim_C10 (freqs : List (Char × Nat)) (h : 2 ≤ freqs.length) :
    ∃ root, build_huffman_tree (freqs.map fun p => leafNode p.1 p.2) = some root
      ∧ internalsOK root := by
  have hne : freqs.map (fun p => leafNode p.1 p.2) ≠ [] := by
    intro hnil
    rw [List.map_eq_nil_iff] at hnil
    rw [hnil] at h
    simp at h
  obtain ⟨root, hloop⟩ := build_loop_length_one _ hne
  refine ⟨root, by rw [build_huffman_tree, hloop]; rfl, ?_⟩
  have hwf := allWF_build_loop _ (allWF_leaf_map freqs)
  rw [hloop] at hwf
  exact wf_internalsOK root (hwf root (by simp)).2

/-- Claim C10 witness: at the mapping {a: 1, b: 2}. -/
theorem claim_C10_witness :
    ∃ root, build_huffman_tree ([('a', 1), ('b', 2)].map fun p => leafNode p.1 p.2)
        = some root
      ∧ internalsOK root :=
  claim_C10 [('a', 1), ('b', 2)] (by decide)

/-- Claim C2: for every input with at least two distinct symbols, the
generated code mapping is prefix-free: the code of one symbol is never an
initial segment of another symbol's code. -/
theorem claim_C2 (word : List Char) (h2 : 2 ≤ (firstOccs word).length) :
    ∃ codes, huffman_encoding word = some codes ∧
      ∀ p ∈ codes, ∀ q ∈ codes, p.1 ≠ q.1 → ¬ starts p.2 q.2 := by
  have hne : word ≠ [] := by
    intro h
    rw [h] at h2
    simp [firstOccs, firstOccsFrom] at h2
  obtain ⟨root, _, henc, hwf, _, _, _⟩ := pipeline_spec word hne
  exact ⟨pathList root [], henc, fun p hp q hq hne' =>
    pathList_no_starts root hwf [] p q hp hq hne'⟩

/-- Claim C2 witness: at the input "ab" (two distinct symbols). -/
theorem claim_C2_witness :
    ∃ codes, huffman_encoding ['a', 'b'] = some codes ∧
      ∀ p ∈ codes, ∀ q ∈ codes, p.1 ≠ q.1 → ¬ starts p.2 q.2 :=
  claim_C2 ['a', 'b'] (by decide)

/-- Claim C8: whenever the pipeline produces a code mapping, the mapping has
exactly one entry for each distinct symbol of the input sequence and no
entries for other symbols. -/
theorem claim_C8 (word : List Char) (codes : List (Char × List Char))
    (h : huffman_encoding word = some codes) :
    (∀ c : Char, (∃ s, (c, s) ∈ codes) ↔ c ∈ word) ∧ (codes.map Prod.fst).Nodup := by
  have hne : word ≠ [] := by
    intro hw
    rw [hw] at h
    exact Option.noConfusion (show (none : Option _) = some codes from h)
  obtain ⟨root, _, henc, _, hchars, _, _⟩ := pipeline_spec word hne
  rw [henc] at h
  have hcodes : codes = pathList root [] := (Option.some.injEq _ _ ▸ h).symm
  subst hcodes
  have hkeys : (pathList root []).map Prod.fst = root.chars := pathList_keys root []
  constructor
  · intro c
    constructor
    · rintro ⟨s, hs⟩
      have : c ∈ (pathList root []).map Prod.fst := List.mem_map.2 ⟨(c, s), hs, rfl⟩
      rw [hkeys] at this
      exact (mem_firstOccs c word).1 (hchars.mem_iff.1 this)
    · intro hcw
      have : c ∈ (pathList root []).map Prod.fst := by
        rw [hkeys]
        exact hchars.mem_iff.2 ((mem_firstOccs c word).2 hcw)
      obtain ⟨p, hp, hpc⟩ := List.mem_map.1 this
      exact ⟨p.2, by rw [← hpc]; simpa using hp⟩
  · rw [hkeys]
    exact hchars.nodup_iff.2 (nodup_firstOccs word)

/-- Claim C8 witness: at the input "ab" with its computed code mapping. -/
theorem claim_C8_witness :
    (∀ c : Char, (∃ s, (c, s) ∈ [('a', ['0']), ('b', ['1'])]) ↔ c ∈ ['a', 'b'])
      ∧ (([('a', ['0']), ('b', ['1'])].map Prod.fst).Nodup) :=
  claim_C8 ['a', 'b'] [('a', ['0']), ('b', ['1'])] (by decide)

/-- Claim C9: the pipeline is deterministic.  Because `huffman_encoding`
resets the global `nodes` before running, its result does not depend on the
global state a previous run (or anything else) left behind: running it twice
in sequence — threading the final global state of the first run into the
second — yields the identical code mapping, equal to the pure result. -/
theorem claim_C9 (g : List Node) (word : List Char) :
    (huffman_encoding_global g word).1
        = (huffman_encoding_global (huffman_encoding_global g word).2 word).1
      ∧ (huffman_encoding_global g word).1 = huffman_encoding word :=
  ⟨rfl, rfl⟩

/-! ### Optimality, abstract part

The competitor in the optimality claim is an arbitrary binary prefix code.
We represent an assignment as a list of entries (weight, codeword) with
codewords in `List Bool`, pairwise incomparable in the prefix order, and
prove that `huffCostW` of the weights — the cost the merge loop pays, shown
above to equal the generated mapping's cost — is a lower bound for the cost
of every such assignment.  The proof is the classical exchange argument:
shorten a maximal codeword whose sibling is unused, move the two smallest
weights onto two sibling codewords of maximal length, merge them, and induct
on the number of entries. -/

/-- The two codewords are incomparable: neither begins the other. -/
def NoPre (s t : List Bool) : Prop := ¬ starts s t ∧ ¬ starts t s

theorem NoPre_symm : ∀ {x y : List Bool}, NoPre x y → NoPre y x :=
  fun h => ⟨h.2, h.1⟩

/-- A prefix-free assignment: pairwise incomparable codewords. -/
def PFl (P : List (Nat × List Bool)) : Prop := (P.map Prod.snd).Pairwise NoPre

/-- Cost of an assignment: sum of weight × codeword length. -/
def lcost (P : List (Nat × List Bool)) : Nat := (P.map fun e => e.1 * e.2.length).sum

/-- Sum of the codeword lengths (the shortening measure). -/
def totalLen (P : List (Nat × List Bool)) : Nat := (P.map fun e => e.2.length).sum

theorem PFl_of_snd_perm {P Q : List (Nat × List Bool)}
    (h : List.Perm (P.map Prod.snd) (Q.map Prod.snd)) (hp : PFl P) : PFl Q :=
  (h.pairwise_iff NoPre_symm).1 hp

theorem lcost_perm {P Q : List (Nat × List Bool)} (h : List.Perm P Q) :
    lcost P = lcost Q := (h.map _).sum_eq

theorem totalLen_perm {P Q : List (Nat × List Bool)} (h : List.Perm P Q) :
    totalLen P = totalLen Q := (h.map _).sum_eq

theorem exists_key_min {α : Type} (f : α → Nat) :
    ∀ (l : List α), l ≠ [] → ∃ a ∈ l, ∀ b ∈ l, f a ≤ f b := by
  intro l
  induction l with
  | nil => intro h; exact absurd rfl h
  | cons x t ih =>
    intro _
    cases t with
    | nil => exact ⟨x, by simp, fun b hb => by simp at hb; rw [hb]⟩
    | cons y t' =>
      obtain ⟨a, ha, hmin⟩ := ih (by simp)
      by_cases hxa : f x ≤ f a
      · refine ⟨x, by simp, fun b hb => ?_⟩
        rcases List.mem_cons.1 hb with rfl | hb
        · exact le_rfl
        · exact hxa.trans (hmin b hb)
      · refine ⟨a, List.mem_cons_of_mem x ha, fun b hb => ?_⟩
        rcases List.mem_cons.1 hb with rfl | hb
        · exact (Nat.le_of_not_le hxa)
        · exact hmin b hb

theorem exists_key_max {α : Type} (f : α → Nat) :
    ∀ (l : List α), l ≠ [] → ∃ a ∈ l, ∀ b ∈ l, f b ≤ f a := by
  intro l
  induction l with
  | nil => intro h; exact absurd rfl h
  | cons x t ih =>
    intro _
    cases t with
    | nil => exact ⟨x, by simp, fun b hb => by simp at hb; rw [hb]⟩
    | cons y t' =>
      obtain ⟨a, ha, hmax⟩ := ih (by simp)
      by_cases hxa : f a ≤ f x
      · refine ⟨x, by simp, fun b hb => ?_⟩
        rcases List.mem_cons.1 hb with rfl | hb
        · exact le_rfl
        · exact (hmax b hb).trans hxa
      · refine ⟨a, List.mem_cons_of_mem x ha, fun b hb => ?_⟩
        rcases List.mem_cons.1 hb with rfl | hb
        · exact (Nat.le_of_not_le hxa)
        · exact hmax b hb

/-- Extract a member to the front, up to permutation. -/
theorem exists_perm_cons {α : Type} {a : α} :
    ∀ {l : List α}, a ∈ l →
      ∃ l', List.Perm l (a :: l') ∧ l'.length + 1 = l.length ∧ ∀ x ∈ l', x ∈ l := by
  intro l h
  induction l with
  | nil => simp at h
  | cons x t ih =>
    rcases List.mem_cons.1 h with rfl | hmem
    · exact ⟨t, List.Perm.refl _, by simp, fun y hy => List.mem_cons_of_mem _ hy⟩
    · obtain ⟨t', hp, hl, hsub⟩ := ih hmem
      refine ⟨x :: t', (hp.cons x).trans (List.Perm.swap a x t'), by simp [← hl], ?_⟩
      intro y hy
      rcases List.mem_cons.1 hy with rfl | hy
      · exact List.mem_cons_self _ _
      · exact List.mem_cons_of_mem _ (hsub y hy)

/-- With at least two entries in a prefix-free assignment, no codeword is
empty (the empty word begins everything). -/
theorem PFl_ne_nil {P : List (Nat × List Bool)} (hpf : PFl P) (h2 : 2 ≤ P.length) :
    ∀ e ∈ P, e.2 ≠ [] := by
  intro e he hnil
  obtain ⟨P', hperm, hlen, _⟩ := exists_perm_cons he
  have hpf' : PFl (e :: P') := PFl_of_snd_perm (hperm.map Prod.snd) hpf
  cases hP' : P' with
  | nil => rw [hP'] at hlen; simp at hlen; omega
  | cons f t =>
    rw [hP'] at hpf'
    have hnp : NoPre e.2 f.2 := by
      have := (List.pairwise_cons.1 hpf').1
      exact this f.2 (by simp)
    rw [hnil] at hnp
    exact hnp.1 (starts_nil f.2)

/-- Saturation: any prefix-free assignment with at least two entries can be
reshaped — without increasing cost or changing the weights — so that two
entries sit on sibling codewords `t ++ [false]`, `t ++ [true]` of maximal
length.  (If the longest codeword's sibling is unused, drop its last bit and
repeat; the total codeword length decreases.) -/
theorem saturate :
    ∀ (N : Nat) (P : List (Nat × List Bool)), totalLen P = N → 2 ≤ P.length → PFl P →
    ∃ (w1 w2 : Nat) (t : List Bool) (P0 : List (Nat × List Bool)),
      PFl ((w1, t ++ [false]) :: (w2, t ++ [true]) :: P0)
      ∧ List.Perm (((w1, t ++ [false]) :: (w2, t ++ [true]) :: P0).map Prod.fst)
          (P.map Prod.fst)
      ∧ (∀ e ∈ P0, e.2.length ≤ t.length + 1)
      ∧ lcost ((w1, t ++ [false]) :: (w2, t ++ [true]) :: P0) ≤ lcost P
      ∧ P0.length + 2 = P.length := by
  intro N
  induction N using Nat.strong_induction_on with
  | _ N ih =>
    intro P hN h2 hpf
    have hPne : P ≠ [] := by intro h; rw [h] at h2; simp at h2
    obtain ⟨e, he, hmax⟩ := exists_key_max (fun e => e.2.length) P hPne
    obtain ⟨P1, hperm, hlen1, hsub1⟩ := exists_perm_cons he
    have hpf1 : PFl (e :: P1) := PFl_of_snd_perm (hperm.map Prod.snd) hpf
    have hene : e.2 ≠ [] := PFl_ne_nil hpf h2 e he
    obtain ⟨t, b, he2⟩ : ∃ t b, e.2 = t ++ [b] :=
      ⟨e.2.dropLast, e.2.getLast hene, (List.dropLast_append_getLast hene).symm⟩
    have hmax1 : ∀ f ∈ P1, f.2.length ≤ t.length + 1 := by
      intro f hf
      have h := hmax f (hsub1 f hf)
      rw [he2] at h
      simpa using h
    by_cases hsib : ∃ f ∈ P1, f.2 = t ++ [!b]
    · obtain ⟨f, hf, hfeq⟩ := hsib
      obtain ⟨P0, hperm2, hlen2, hsub2⟩ := exists_perm_cons hf
      have hPP : List.Perm P (e :: f :: P0) := hperm.trans (hperm2.cons e)
      have hP0len : ∀ g ∈ P0, g.2.length ≤ t.length + 1 := fun g hg => hmax1 g (hsub2 g hg)
      have hlens : P0.length + 2 = P.length := by
        have := hPP.length_eq
        simp at this
        omega
      cases b with
      | false =>
        have hfeq' : f.2 = t ++ [true] := by simpa using hfeq
        have hE : (e.1, t ++ [false]) = e := by rw [← he2]
        have hF : (f.1, t ++ [true]) = f := by rw [← hfeq']
        refine ⟨e.1, f.1, t, P0, ?_, ?_, hP0len, ?_, hlens⟩
        · rw [hE, hF]
          exact PFl_of_snd_perm (hPP.map Prod.snd) hpf
        · rw [hE, hF]
          exact hPP.symm.map Prod.fst
        · rw [hE, hF]
          exact le_of_eq (lcost_perm hPP.symm)
      | true =>
        have hfeq' : f.2 = t ++ [false] := by simpa using hfeq
        have hE : (e.1, t ++ [true]) = e := by rw [← he2]
        have hF : (f.1, t ++ [false]) = f := by rw [← hfeq']
        have hPP' : List.Perm P (f :: e :: P0) := hPP.trans (List.Perm.swap f e P0)
        refine ⟨f.1, e.1, t, P0, ?_, ?_, hP0len, ?_, hlens⟩
        · rw [hE, hF]
          exact PFl_of_snd_perm (hPP'.map Prod.snd) hpf
        · rw [hE, hF]
          exact hPP'.symm.map Prod.fst
        · rw [hE, hF]
          exact le_of_eq (lcost_perm hPP'.symm)
    · have hpf1' := List.pairwise_cons.1 hpf1
      have hhead : ∀ s ∈ P1.map Prod.snd, NoPre e.2 s := hpf1'.1
      have hshort : PFl ((e.1, t) :: P1) := by
        refine List.pairwise_cons.2 ⟨?_, hpf1'.2⟩
        intro s hs
        obtain ⟨f, hf, rfl⟩ := List.mem_map.1 hs
        have hnp : NoPre e.2 f.2 := hhead f.2 (List.mem_map.2 ⟨f, hf, rfl⟩)
        rw [he2] at hnp
        constructor
        · rintro ⟨d, hd⟩
          cases d with
          | nil =>
            simp at hd
            exact hnp.2 ⟨[b], by rw [hd]⟩
          | cons c d' =>
            by_cases hcb : c = b
            · refine hnp.1 ⟨d', ?_⟩
              rw [List.append_assoc, List.singleton_append, ← hcb]
              exact hd
            · have hcnb : c = !b := by
                cases b <;> cases c <;> simp_all
              have hflen : f.2.length ≤ t.length + 1 := hmax1 f hf
              have hd' : d' = [] := by
                have : f.2.length = t.length + 1 + d'.length := by
                  rw [← hd]
                  simp only [List.length_append, List.length_cons]
                  omega
                have hlen0 : d'.length = 0 := by omega
                exact List.length_eq_zero.1 hlen0
              exact hsib ⟨f, hf, by rw [← hd, hd', hcnb]⟩
        · rintro ⟨d, hd⟩
          exact hnp.2 ⟨d ++ [b], by rw [← List.append_assoc, hd]⟩
      have htl : totalLen ((e.1, t) :: P1) + 1 = N := by
        have h1 : totalLen P = totalLen (e :: P1) := totalLen_perm hperm
        have h2' : totalLen (e :: P1) = (t.length + 1) + totalLen P1 := by
          show (e.2.length) + totalLen P1 = (t.length + 1) + totalLen P1
          rw [he2]
          simp
        have h3 : totalLen ((e.1, t) :: P1) = t.length + totalLen P1 := rfl
        omega
      have hlen' : 2 ≤ ((e.1, t) :: P1).length := by
        have := hperm.length_eq
        simp at this ⊢
        omega
      obtain ⟨w1, w2, t0, P0, g1, g2, g3, g4, g5⟩ :=
        ih (totalLen ((e.1, t) :: P1)) (by omega) ((e.1, t) :: P1) rfl hlen' hshort
      refine ⟨w1, w2, t0, P0, g1, ?_, g3, ?_, ?_⟩
      · refine g2.trans ?_
        show List.Perm (e.1 :: P1.map Prod.fst) (P.map Prod.fst)
        have := (hperm.map Prod.fst).symm
        simpa using this
      · refine g4.trans ?_
        have h1 : lcost ((e.1, t) :: P1) = e.1 * t.length + lcost P1 := rfl
        have h2' : lcost (e :: P1) = e.1 * (t.length + 1) + lcost P1 := by
          show e.1 * e.2.length + lcost P1 = e.1 * (t.length + 1) + lcost P1
          rw [he2]
          simp
        have h3 : lcost P = lcost (e :: P1) := lcost_perm hperm
        have h4 : e.1 * t.length ≤ e.1 * (t.length + 1) :=
          Nat.mul_le_mul_left _ (by omega)
        omega
      · have := hperm.length_eq
        simp at this
        simp at g5
        omega

/-- Exchange the weight `w` sitting on a codeword of maximal length `L` with
the smallest weight of the pool: the multiset of weights and of codewords is
unchanged, and the cost cannot increase. -/
theorem swap_min (w : Nat) (L : Nat) (P1 : List (Nat × List Bool))
    (hlen : ∀ e ∈ P1, e.2.length ≤ L) :
    ∃ (a : Nat) (P1' : List (Nat × List Bool)),
      List.Perm (a :: P1'.map Prod.fst) (w :: P1.map Prod.fst)
      ∧ List.Perm (P1'.map Prod.snd) (P1.map Prod.snd)
      ∧ (∀ x ∈ P1'.map Prod.fst, a ≤ x)
      ∧ a ≤ w
      ∧ (∀ e ∈ P1', e.2.length ≤ L)
      ∧ a * L + lcost P1' ≤ w * L + lcost P1 := by
  by_cases hP1 : P1 = []
  · subst hP1
    exact ⟨w, [], List.Perm.refl _, List.Perm.refl _, by simp, le_rfl, by simp, le_rfl⟩
  · obtain ⟨e, he, hmin⟩ := exists_key_min Prod.fst P1 hP1
    by_cases hw : w ≤ e.1
    · refine ⟨w, P1, List.Perm.refl _, List.Perm.refl _, ?_, le_rfl, hlen, le_rfl⟩
      intro x hx
      obtain ⟨f, hfmem, rfl⟩ := List.mem_map.1 hx
      exact hw.trans (hmin f hfmem)
    · obtain ⟨P2, hperm, _, hsub⟩ := exists_perm_cons he
      have hew : e.1 ≤ w := Nat.le_of_not_le hw
      have h1 : List.Perm (P1.map Prod.fst) (e.1 :: P2.map Prod.fst) := by
        have := hperm.map Prod.fst
        simpa using this
      refine ⟨e.1, (w, e.2) :: P2, ?_, ?_, ?_, hew, ?_, ?_⟩
      · show List.Perm (e.1 :: w :: P2.map Prod.fst) (w :: P1.map Prod.fst)
        exact (List.Perm.swap w e.1 _).trans (h1.symm.cons w)
      · show List.Perm (e.2 :: P2.map Prod.snd) (P1.map Prod.snd)
        have := (hperm.map Prod.snd).symm
        simpa using this
      · intro x hx
        rcases List.mem_cons.1 hx with rfl | hx
        · exact hew
        · obtain ⟨f, hfmem, rfl⟩ := List.mem_map.1 hx
          exact hmin f (hsub f hfmem)
      · intro g hg
        rcases List.mem_cons.1 hg with rfl | hg
        · exact hlen e he
        · exact hlen g (hsub g hg)
      · have hcost1 : lcost P1 = e.1 * e.2.length + lcost P2 := lcost_perm hperm
        have hkey : e.1 * L + w * e.2.length ≤ e.1 * e.2.length + w * L :=
          mul_add_mul_le_mul_add_mul hew (hlen e he)
        have hcost2 : lcost ((w, e.2) :: P2) = w * e.2.length + lcost P2 := rfl
        omega

theorem insertionSort_cons_cons (a b : Nat) (W : List Nat)
    (hab : a ≤ b) (hbW : ∀ x ∈ W, b ≤ x) :
    List.insertionSort (fun x y : Nat => x ≤ y) (a :: b :: W)
      = a :: b :: List.insertionSort (fun x y : Nat => x ≤ y) W := by
  refine @List.eq_of_perm_of_sorted ℕ (fun x y : Nat => x ≤ y) _ _ _ ?_ ?_ ?_
  · exact (List.perm_insertionSort _ _).trans
      (((List.perm_insertionSort _ W).symm.cons b).cons a)
  · exact List.sorted_insertionSort _ _
  · refine List.sorted_cons.2 ⟨?_, List.sorted_cons.2 ⟨?_, List.sorted_insertionSort _ W⟩⟩
    · intro x hx
      rcases List.mem_cons.1 hx with rfl | hx
      · exact hab
      · exact hab.trans (hbW x ((List.mem_insertionSort _).1 hx))
    · intro x hx
      exact hbW x ((List.mem_insertionSort _).1 hx)

/-- Optimality of the merge loop's cost over all binary prefix-free
assignments with the same multiset of weights. -/
theorem huff_opt_list :
    ∀ (n : Nat) (P : List (Nat × List Bool)), P.length = n → PFl P →
      huffCostW (P.map Prod.fst) ≤ lcost P := by
  intro n
  induction n using Nat.strong_induction_on with
  | _ n ih =>
    intro P hn hpf
    by_cases h2 : 2 ≤ P.length
    · obtain ⟨w1, w2, t, P0, hQpf, hQw, hQlen, hQcost, hQn⟩ :=
        saturate (totalLen P) P rfl h2 hpf
      have hpool : ∀ e ∈ (w2, t ++ [true]) :: P0, e.2.length ≤ t.length + 1 := by
        intro e he'
        rcases List.mem_cons.1 he' with rfl | he'
        · simp
        · exact hQlen e he'
      obtain ⟨a, R1, perm1, psnd1, hmin1, haw1, hlen1, hc1⟩ :=
        swap_min w1 (t.length + 1) ((w2, t ++ [true]) :: P0) hpool
      have htmem : (t ++ [true]) ∈ R1.map Prod.snd := by
        rw [psnd1.mem_iff]
        show (t ++ [true]) ∈ ((w2, t ++ [true]) :: P0).map Prod.snd
        simp
      obtain ⟨f, hfR1, hfeq⟩ := List.mem_map.1 htmem
      obtain ⟨R2, permf, hlenf, hsubf⟩ := exists_perm_cons hfR1
      have hR2len : ∀ e ∈ R2, e.2.length ≤ t.length + 1 := fun e he' =>
        hlen1 e (hsubf e he')
      obtain ⟨b, R2', perm2, psnd2, hmin2, hbf, hlen2, hc2⟩ :=
        swap_min f.1 (t.length + 1) R2 hR2len
      have hLf : (t ++ [false]).length = t.length + 1 := by simp
      have hLt : (t ++ [true]).length = t.length + 1 := by simp
      -- snd multiset bookkeeping
      have hsndR1 : List.Perm (R1.map Prod.snd) ((t ++ [true]) :: R2.map Prod.snd) := by
        have h' := permf.map Prod.snd
        simp only [List.map_cons] at h'
        rw [hfeq] at h'
        exact h'
      have hsndR2 : List.Perm (R2.map Prod.snd) (P0.map Prod.snd) := by
        have h' : List.Perm ((t ++ [true]) :: R2.map Prod.snd)
            ((t ++ [true]) :: P0.map Prod.snd) := by
          refine hsndR1.symm.trans (psnd1.trans ?_)
          show List.Perm (((w2, t ++ [true]) :: P0).map Prod.snd)
            ((t ++ [true]) :: P0.map Prod.snd)
          simp
        exact h'.cons_inv
      have hsndR2' : List.Perm (R2'.map Prod.snd) (P0.map Prod.snd) := psnd2.trans hsndR2
      -- the rearranged assignment M
      have hpfM : PFl ((a, t ++ [false]) :: (b, t ++ [true]) :: R2') := by
        refine PFl_of_snd_perm ?_ hQpf
        show List.Perm (((w1, t ++ [false]) :: (w2, t ++ [true]) :: P0).map Prod.snd)
          (((a, t ++ [false]) :: (b, t ++ [true]) :: R2').map Prod.snd)
        simp only [List.map_cons]
        exact ((hsndR2'.symm).cons _).cons _
      -- weights
      have hwM : List.Perm ((a :: b :: R2'.map Prod.fst)) (P.map Prod.fst) := by
        have s1 : List.Perm (b :: R2'.map Prod.fst) (R1.map Prod.fst) := by
          refine perm2.trans ?_
          have := (permf.map Prod.fst).symm
          simpa using this
        have s2 : List.Perm (a :: b :: R2'.map Prod.fst) (a :: R1.map Prod.fst) :=
          s1.cons a
        refine (s2.trans perm1).trans ?_
        refine List.Perm.trans ?_ hQw
        show List.Perm (w1 :: ((w2, t ++ [true]) :: P0).map Prod.fst)
          (((w1, t ++ [false]) :: (w2, t ++ [true]) :: P0).map Prod.fst)
        simp
      -- a is the global minimum, b the second
      have hab : a ≤ b := by
        have hbmem : b ∈ R1.map Prod.fst := by
          have h' : b ∈ f.1 :: R2.map Prod.fst := perm2.mem_iff.1 (by simp)
          have := (permf.map Prod.fst).symm
          rw [List.Perm.mem_iff (by simpa using this)] at h'
          exact h'
        exact hmin1 b hbmem
      have hbW : ∀ x ∈ R2'.map Prod.fst, b ≤ x := hmin2
      -- cost of M
      have hcostR1 : lcost R1 = f.1 * (t.length + 1) + lcost R2 := by
        have h' : lcost R1 = lcost (f :: R2) := lcost_perm permf
        rw [h']
        show f.1 * f.2.length + lcost R2 = f.1 * (t.length + 1) + lcost R2
        rw [hfeq, hLt]
      have hcostM : lcost ((a, t ++ [false]) :: (b, t ++ [true]) :: R2')
          = a * (t.length + 1) + (b * (t.length + 1) + lcost R2') := by
        show a * (t ++ [false]).length + (b * (t ++ [true]).length + lcost R2')
          = a * (t.length + 1) + (b * (t.length + 1) + lcost R2')
        rw [hLf, hLt]
      have hcostQ : lcost ((w1, t ++ [false]) :: (w2, t ++ [true]) :: P0)
          = w1 * (t.length + 1) + (w2 * (t.length + 1) + lcost P0) := by
        show w1 * (t ++ [false]).length + (w2 * (t ++ [true]).length + lcost P0)
          = w1 * (t.length + 1) + (w2 * (t.length + 1) + lcost P0)
        rw [hLf, hLt]
      have hc1' : a * (t.length + 1) + lcost R1
          ≤ w1 * (t.length + 1) + (w2 * (t.length + 1) + lcost P0) := by
        refine hc1.trans (le_of_eq ?_)
        show w1 * (t.length + 1) + (w2 * (t ++ [true]).length + lcost P0)
          = w1 * (t.length + 1) + (w2 * (t.length + 1) + lcost P0)
        rw [hLt]
      have hcostMP : lcost ((a, t ++ [false]) :: (b, t ++ [true]) :: R2') ≤ lcost P := by
        rw [hcostM]
        have step1 : a * (t.length + 1) + (b * (t.length + 1) + lcost R2')
            ≤ a * (t.length + 1) + (f.1 * (t.length + 1) + lcost R2) :=
          Nat.add_le_add_left hc2 _
        have step2 : a * (t.length + 1) + (f.1 * (t.length + 1) + lcost R2)
            = a * (t.length + 1) + lcost R1 := by rw [hcostR1]
        refine step1.trans (le_of_eq step2 |>.trans ?_)
        refine hc1'.trans ?_
        rw [← hcostQ]
        exact hQcost
      -- merge the two smallest
      have hpfM' : PFl ((a + b, t) :: R2') := by
        have hM := hpfM
        rw [PFl] at hM
        simp only [List.map_cons] at hM
        have hM1 := List.pairwise_cons.1 hM
        have hM2 := List.pairwise_cons.1 hM1.2
        refine List.pairwise_cons.2 ⟨?_, hM2.2⟩
        intro s hs
        have h0 : NoPre (t ++ [false]) s := hM1.1 s (List.mem_cons_of_mem _ hs)
        have h1 : NoPre (t ++ [true]) s := hM2.1 s hs
        constructor
        · rintro ⟨d, hd⟩
          cases d with
          | nil =>
            simp at hd
            exact h0.2 ⟨[false], by rw [hd]⟩
          | cons c d' =>
            cases c with
            | false =>
              exact h0.1 ⟨d', by rw [List.append_assoc, List.singleton_append, hd]⟩
            | true =>
              exact h1.1 ⟨d', by rw [List.append_assoc, List.singleton_append, hd]⟩
        · rintro ⟨d, hd⟩
          exact h0.2 ⟨d ++ [false], by rw [← List.append_assoc, hd]⟩
      have hcostM' : lcost ((a + b, t) :: R2') + (a + b)
          = lcost ((a, t ++ [false]) :: (b, t ++ [true]) :: R2') := by
        rw [hcostM]
        show (a + b) * t.length + lcost R2' + (a + b)
          = a * (t.length + 1) + (b * (t.length + 1) + lcost R2')
        have : (a + b) * t.length + (a + b)
            = a * (t.length + 1) + b * (t.length + 1) := by ring
        omega
      have hlenM' : ((a + b, t) :: R2').length = n - 1 := by
        have e1 : R2'.length = R2.length := by
          have := perm2.length_eq
          simp at this
          omega
        have e2 : R2.length + 1 = R1.length := hlenf
        have e3 : R1.length = P0.length + 1 := by
          have := perm1.length_eq
          simp at this
          omega
        simp only [List.length_cons]
        omega
      have hn2 : 2 ≤ n := by omega
      have ihM' := ih (n - 1) (by omega) ((a + b, t) :: R2') hlenM' hpfM'
      -- unfold huffCostW at the sorted weights
      have hsorted : List.insertionSort (fun x y : Nat => x ≤ y)
          (a :: b :: R2'.map Prod.fst)
          = a :: b :: List.insertionSort (fun x y : Nat => x ≤ y) (R2'.map Prod.fst) :=
        insertionSort_cons_cons a b _ hab hbW
      have hunfold : huffCostW (a :: b :: R2'.map Prod.fst)
          = (a + b) + huffCostW
              (List.insertionSort (fun x y : Nat => x ≤ y) (R2'.map Prod.fst) ++ [a + b]) :=
        huffCostW_eq_cons _ _ _ _ hsorted
      have hstep : huffCostW
          (List.insertionSort (fun x y : Nat => x ≤ y) (R2'.map Prod.fst) ++ [a + b])
          = huffCostW (((a + b, t) :: R2').map Prod.fst) := by
        refine huffCostW_perm _ _ ?_
        show List.Perm _ ((a + b) :: R2'.map Prod.fst)
        refine (List.perm_append_singleton _ _).trans ?_
        exact (List.perm_insertionSort _ _).cons _
      have hPM : huffCostW (P.map Prod.fst) = huffCostW (a :: b :: R2'.map Prod.fst) :=
        huffCostW_perm _ _ hwM.symm
      rw [hPM, hunfold, hstep]
      have final1 : (a + b) + huffCostW (((a + b, t) :: R2').map Prod.fst)
          ≤ (a + b) + lcost ((a + b, t) :: R2') := Nat.add_le_add_left ihM' _
      refine final1.trans ?_
      have : (a + b) + lcost ((a + b, t) :: R2')
          = lcost ((a, t ++ [false]) :: (b, t ++ [true]) :: R2') := by omega
      rw [this]
      exact hcostMP
    · cases P with
      | nil =>
        have h0 : huffCostW ([] : List Nat) = 0 := huffCostW_eq_nil [] rfl
        simp [h0]
      | cons e P' =>
        cases P' with
        | nil =>
          have h0 : huffCostW [e.1] = 0 := huffCostW_eq_single [e.1] e.1 rfl
          show huffCostW [e.1] ≤ lcost [e]
          rw [h0]
          exact Nat.zero_le _
        | cons f P'' =>
          exact absurd (by simp only [List.length_cons]; omega : 2 ≤ (e :: f :: P'').length) h2

/-- Claim C1: for every non-empty input, the code mapping produced by
building the Huffman tree and generating codes minimizes the total bit count
`sum over symbols of frequency(sym) * len(code(sym))` among all binary
prefix-free assignments of codewords to the input's symbols. -/
theorem claim_C1 (word : List Char) (hne : word ≠ []) (β : Char → List Bool)
    (hβ : ∀ c1 ∈ word, ∀ c2 ∈ word, c1 ≠ c2 → ¬ starts (β c1) (β c2)) :
    ∃ codes, huffman_encoding word = some codes ∧
      (codes.map fun p => word.count p.1 * p.2.length).sum
        ≤ (codes.map fun p => word.count p.1 * (β p.1).length).sum := by
  obtain ⟨root, _, henc, hwf, hchars, hlp, hcost⟩ := pipeline_spec word hne
  refine ⟨pathList root [], henc, ?_⟩
  have hw : ∀ pr ∈ root.leafPairs, pr.2 = word.count pr.1 := by
    intro pr hpr
    have h1 : pr ∈ (firstOccs word).map fun c => (c, word.count c) := hlp.mem_iff.1 hpr
    obtain ⟨c, _, rfl⟩ := List.mem_map.1 h1
    rfl
  have hprod : ((pathList root []).map fun p => word.count p.1 * p.2.length).sum
      = treeCost root := by
    have h1 := pathList_cost (fun c => word.count c) root hw []
    have h2 := pathCost_eq root hwf 0
    simp only [List.length_nil] at h1
    simp only [Nat.zero_mul, Nat.add_zero] at h2
    rw [h1, h2]
  have hQpf : PFl ((firstOccs word).map fun c => (word.count c, β c)) := by
    rw [PFl, List.map_map]
    have hcomp : (Prod.snd ∘ fun c => (word.count c, β c)) = fun c => β c := rfl
    rw [hcomp, List.pairwise_map]
    have hnd : (firstOccs word).Pairwise (fun a b => a ≠ b) := nodup_firstOccs word
    refine hnd.imp_of_mem ?_
    intro a b ha hb hne'
    have haw := (mem_firstOccs a word).1 ha
    have hbw := (mem_firstOccs b word).1 hb
    exact ⟨hβ a haw b hbw hne', hβ b hbw a haw (Ne.symm hne')⟩
  have hopt := huff_opt_list ((firstOccs word).map fun c => (word.count c, β c)).length
    ((firstOccs word).map fun c => (word.count c, β c)) rfl hQpf
  have hQfst : ((firstOccs word).map fun c => (word.count c, β c)).map Prod.fst
      = (firstOccs word).map fun c => word.count c := by
    rw [List.map_map]
    rfl
  have hQcost : lcost ((firstOccs word).map fun c => (word.count c, β c))
      = ((firstOccs word).map fun c => word.count c * (β c).length).sum := by
    rw [lcost, List.map_map]
    rfl
  have hkeys : (pathList root []).map Prod.fst = root.chars := pathList_keys root []
  have hrhs : ((pathList root []).map fun p => word.count p.1 * (β p.1).length).sum
      = ((firstOccs word).map fun c => word.count c * (β c).length).sum := by
    have e1 : ((pathList root []).map fun p => word.count p.1 * (β p.1).length)
        = ((pathList root []).map Prod.fst).map fun c => word.count c * (β c).length := by
      rw [List.map_map]
      rfl
    rw [e1, hkeys]
    exact (hchars.map fun c => word.count c * (β c).length).sum_eq
  rw [hprod, hrhs, hcost]
  rw [hQfst] at hopt
  rw [hQcost] at hopt
  exact hopt

/-- Claim C1 witness: the input "ab" against the competitor prefix code
{a ↦ [false], b ↦ [true]}. -/
theorem claim_C1_witness :
    ∃ codes, huffman_encoding ['a', 'b'] = some codes ∧
      (codes.map fun p => ['a', 'b'].count p.1 * p.2.length).sum
        ≤ (codes.map fun p =>
            ['a', 'b'].count p.1
              * ((if p.1 = 'a' then [false] else [true]) : List Bool).length).sum :=
  claim_C1 ['a', 'b'] (by decide) (fun c => if c = 'a' then [false] else [true]) (by decide)
